import Mathlib

/-!
Verification of the brick-builder core of `convert_to_bricks.py` (seismic-viewer).

The script converts a dense 3D seismic volume into a multi-resolution bricked
binary format.  We embed it shallowly: a numpy 3D float array becomes a
`Volume` (dimensions, a dtype tag, and a total valuation function into ℚ;
float arithmetic is modelled exactly over the rationals), flattening is
row-major (x slowest, z fastest) exactly as numpy `tofile` serialises a
C-contiguous array, and the straight-line fallible write loop of
`create_bricks` becomes an explicit event-trace function over a success
oracle.
-/

/-- Dtype tag carried by a numpy array in the embedding (`astype(np.float32)`
in the source sets it to `float32`). -/
inductive DType where
  | float32
  | float64
  deriving DecidableEq

/-- Shallow embedding of a dense 3D numpy array: dimensions, dtype tag, and a
valuation function (row-major semantics are recovered by `Volume.toList`).
Sample values are modelled exactly in ℚ. -/
structure Volume where
  nx : ℕ
  ny : ℕ
  nz : ℕ
  dtype : DType
  val : ℕ → ℕ → ℕ → ℚ

/-- Row-major (x slowest, z fastest) flattening of a volume, as numpy's
C-contiguous order used by `np.percentile(data, ...)` on the full array and by
`ndarray.tofile`. -/
def Volume.toList (v : Volume) : List ℚ :=
  (List.range v.nx).flatMap fun i =>
    (List.range v.ny).flatMap fun j =>
      (List.range v.nz).map fun k => v.val i j k

/-- Minimum of a list of rationals, as numpy `ndarray.min()` on a nonempty
array (the `[]` case is arbitrary: numpy raises there). -/
def listMin : List ℚ → ℚ
  | [] => 0
  | x :: xs => xs.foldl min x

/-- Maximum of a list of rationals, as numpy `ndarray.max()` on a nonempty
array. -/
def listMax : List ℚ → ℚ
  | [] => 0
  | x :: xs => xs.foldl max x

/-- Elementwise clamp, as `np.clip(x, lo, hi)` (numpy computes
`min(max(x, lo), hi)`). -/
def clip (x lo hi : ℚ) : ℚ := min (max x lo) hi

/-- Percentile with numpy's default linear interpolation:
`pos = q/100 * (n-1)`, `i = floor(pos)`, interpolate between the sorted
samples at `i` and `i+1` (clamping the upper index into range).  Sorting is
embedded with `insertionSort`, which produces the same sorted value sequence
as numpy's sort. -/
def percentile (xs : List ℚ) (q : ℚ) : ℚ :=
  let s := List.insertionSort (· ≤ ·) xs
  let pos := q * ((s.length : ℚ) - 1) / 100
  let i := (⌊pos⌋).toNat
  let a := s.getD i 0
  let b := s.getD (i + 1) a
  a + (pos - (i : ℚ)) * (b - a)

/-- Embedding of `normalize_data` (src/convert_to_bricks.py:44-57): compute
the 1st and 99th percentiles of all samples, clip to `[p1, p99]`, then if the
clipped range is positive rescale linearly to `[-1, 1]`, else return zeros;
the result is cast to float32. -/
def normalize_data (v : Volume) : Volume :=
  let xs := v.toList
  let p1 := percentile xs 1
  let p99 := percentile xs 99
  let clippedVal : ℕ → ℕ → ℕ → ℚ := fun i j k => clip (v.val i j k) p1 p99
  let cList := xs.map fun x => clip x p1 p99
  let dmin := listMin cList
  let dmax := listMax cList
  let norm : ℕ → ℕ → ℕ → ℚ :=
    if dmax - dmin > 0 then
      fun i j k => 2 * (clippedVal i j k - dmin) / (dmax - dmin) - 1
    else
      fun _ _ _ => 0
  { nx := v.nx, ny := v.ny, nz := v.nz, dtype := DType.float32, val := norm }

/-- Embedding of `downsample_volume` (src/convert_to_bricks.py:60-74): for
`factor ≤ 1` return the input unchanged; otherwise truncate each axis down to
a multiple of `factor`, partition into `factor³` blocks and replace each block
by its arithmetic mean (numpy reshape + `mean(axis=(1,3,5))`), cast to
float32.  Slicing `data[:tx,:ty,:tz]` keeps values at the surviving indices,
so the block mean reads the original valuation. -/
def downsample_volume (v : Volume) (factor : ℕ) : Volume :=
  if factor ≤ 1 then v
  else
    let tx := v.nx / factor * factor
    let ty := v.ny / factor * factor
    let tz := v.nz / factor * factor
    { nx := tx / factor, ny := ty / factor, nz := tz / factor,
      dtype := DType.float32,
      val := fun i j k =>
        (∑ a ∈ Finset.range factor, ∑ b ∈ Finset.range factor,
            ∑ c ∈ Finset.range factor,
            v.val (i * factor + a) (j * factor + b) (k * factor + c))
          / (factor : ℚ) ^ 3 }

/-- Volume used for level `level` of the pyramid in `create_bricks`
(src/convert_to_bricks.py:107-111): level 0 is the normalized data itself,
and every coarser level is `downsample_volume data (2 ^ level)` applied to the
*original* normalized data, never to the previous level. -/
def levelVolume (data : Volume) (level : ℕ) : Volume :=
  if level = 0 then data else downsample_volume data (2 ^ level)

/-- Brick count on one axis, `(n + b - 1) // b` from
src/convert_to_bricks.py:117-119. -/
def numBricks (n b : ℕ) : ℕ := (n + b - 1) / b

/-- Lower slice bound of brick `i` on one axis, `i * b`
(src/convert_to_bricks.py:144-146). -/
def brickLo (i b : ℕ) : ℕ := i * b

/-- Upper (exclusive) slice bound of brick `i` on one axis,
`min ((i+1) * b) n` (src/convert_to_bricks.py:144-146). -/
def brickHi (i b n : ℕ) : ℕ := min ((i + 1) * b) n

/-- Actual occupied extent of brick `i` on one axis, `x1 - x0` as written into
the brick header (src/convert_to_bricks.py:163). -/
def brickExtent (i b n : ℕ) : ℕ := brickHi i b n - brickLo i b

/-- Valuation of the zero-initialised padded buffer of
src/convert_to_bricks.py:153-154: the extracted ragged block sits in the
top-left-front corner, everything beyond the actual extent is 0. -/
def padBrickVal (v : Volume) (x0 y0 z0 ex ey ez : ℕ) : ℕ → ℕ → ℕ → ℚ :=
  fun i j k => if i < ex ∧ j < ey ∧ k < ez then v.val (x0 + i) (y0 + j) (z0 + k) else 0

/-- Valuation of the buffer actually serialised for one brick
(src/convert_to_bricks.py:149-155): the extracted block when its shape equals
the nominal brick size, otherwise the zero-padded buffer. -/
def brickPayloadVal (v : Volume) (bs : ℕ × ℕ × ℕ) (ix iy iz : ℕ) : ℕ → ℕ → ℕ → ℚ :=
  let ex := brickExtent ix bs.1 v.nx
  let ey := brickExtent iy bs.2.1 v.ny
  let ez := brickExtent iz bs.2.2 v.nz
  if (ex, ey, ez) = bs then
    fun i j k => v.val (brickLo ix bs.1 + i) (brickLo iy bs.2.1 + j) (brickLo iz bs.2.2 + k)
  else
    padBrickVal v (brickLo ix bs.1) (brickLo iy bs.2.1) (brickLo iz bs.2.2) ex ey ez

/-- Row-major (x slowest, z fastest) flattening of an `n1 × n2 × n3` buffer,
as `ndarray.tofile` on a C-contiguous float32 array. -/
def flatten3 (n1 n2 n3 : ℕ) (f : ℕ → ℕ → ℕ → ℚ) : List ℚ :=
  (List.range n1).flatMap fun i =>
    (List.range n2).flatMap fun j =>
      (List.range n3).map fun k => f i j k

/-- Contents of one serialised brick file: three int32 header words (the
actual extents) followed by the float32 payload words in row-major order
(src/convert_to_bricks.py:162-165). -/
structure BrickFile where
  header : ℤ × ℤ × ℤ
  payload : List ℚ

/-- Serialisation of one brick of a level volume, as the `with open(...)`
block of src/convert_to_bricks.py:162-165 writes it. -/
def serializeBrick (v : Volume) (bs : ℕ × ℕ × ℕ) (ix iy iz : ℕ) : BrickFile :=
  { header := ((brickExtent ix bs.1 v.nx : ℤ), (brickExtent iy bs.2.1 v.ny : ℤ),
      (brickExtent iz bs.2.2 v.nz : ℤ)),
    payload := flatten3 bs.1 bs.2.1 bs.2.2 (brickPayloadVal v bs ix iy iz) }

/-- Size in bytes of a serialised brick file: three 4-byte int32 header words
plus 4 bytes per float32 payload word.  This is what `os.path.getsize`
returns for the file written at src/convert_to_bricks.py:162-167. -/
def byteSize (bf : BrickFile) : ℕ := 3 * 4 + 4 * bf.payload.length

/-- Reader side of the brick format: look up payload word `(i, j, k)` of a
brick file by the row-major index `(i*by + j)*bz + k` (a reader trims to the
header extents by only querying `i < ex`, `j < ey`, `k < ez`). -/
def readTrimmedVal (bf : BrickFile) (bs : ℕ × ℕ × ℕ) (i j k : ℕ) : ℚ :=
  bf.payload.getD ((i * bs.2.1 + j) * bs.2.2 + k) 0

/-- Metadata record for one brick (`BrickInfo` dataclass,
src/convert_to_bricks.py:22-30). -/
structure BrickInfo where
  level : ℕ
  x : ℕ
  y : ℕ
  z : ℕ
  filename : String
  byte_size : ℕ
  deriving DecidableEq

/-- Metadata record for one resolution level (`LevelInfo` dataclass,
src/convert_to_bricks.py:33-41). -/
structure LevelInfo where
  level : ℕ
  scale_factor : ℕ
  dimensions : ℕ × ℕ × ℕ
  brick_size : ℕ × ℕ × ℕ
  num_bricks : ℕ × ℕ × ℕ
  total_bricks : ℕ
  deriving DecidableEq

/-- Manifest document (src/convert_to_bricks.py:181-189). -/
structure Manifest where
  version : String
  original_dimensions : ℕ × ℕ × ℕ
  brick_size : ℕ × ℕ × ℕ
  num_levels : ℕ
  levels : List LevelInfo
  bricks : List BrickInfo
  total_size_bytes : ℕ

/-- Relative path of one brick file,
`level_<level>/brick_<ix>_<iy>_<iz>.bin` (src/convert_to_bricks.py:158,172). -/
def brickFilename (level ix iy iz : ℕ) : String :=
  "level_" ++ toString level ++ "/brick_" ++ toString ix ++ "_" ++
    toString iy ++ "_" ++ toString iz ++ ".bin"

/-- Level record built in the loop of src/convert_to_bricks.py:124-131. -/
def levelInfoFor (data : Volume) (level : ℕ) (bs : ℕ × ℕ × ℕ) : LevelInfo :=
  let lv := levelVolume data level
  { level := level,
    scale_factor := 2 ^ level,
    dimensions := (lv.nx, lv.ny, lv.nz),
    brick_size := bs,
    num_bricks := (numBricks lv.nx bs.1, numBricks lv.ny bs.2.1, numBricks lv.nz bs.2.2),
    total_bricks := numBricks lv.nx bs.1 * numBricks lv.ny bs.2.1 * numBricks lv.nz bs.2.2 }

/-- Brick record built in the inner loop of src/convert_to_bricks.py:169-175. -/
def brickInfoAt (data : Volume) (level : ℕ) (bs : ℕ × ℕ × ℕ) (ix iy iz : ℕ) : BrickInfo :=
  { level := level, x := ix, y := iy, z := iz,
    filename := brickFilename level ix iy iz,
    byte_size := byteSize (serializeBrick (levelVolume data level) bs ix iy iz) }

/-- Brick records of one level, in the loop order of
src/convert_to_bricks.py:140-142: `ix` outermost, `iz` innermost. -/
def bricksForLevel (data : Volume) (level : ℕ) (bs : ℕ × ℕ × ℕ) : List BrickInfo :=
  let lv := levelVolume data level
  (List.range (numBricks lv.nx bs.1)).flatMap fun ix =>
    (List.range (numBricks lv.ny bs.2.1)).flatMap fun iy =>
      (List.range (numBricks lv.nz bs.2.2)).map fun iz =>
        brickInfoAt data level bs ix iy iz

/-- Embedding of `create_bricks` (src/convert_to_bricks.py:77-200): normalize
once, then per level record metadata and bricks in loop order, and assemble
the manifest with `total_size_bytes` the sum of the brick byte sizes. -/
def create_bricks (v : Volume) (bs : ℕ × ℕ × ℕ) (num_levels : ℕ) : Manifest :=
  let data := normalize_data v
  let bricks := (List.range num_levels).flatMap fun l => bricksForLevel data l bs
  { version := "1.0",
    original_dimensions := (data.nx, data.ny, data.nz),
    brick_size := bs,
    num_levels := num_levels,
    levels := (List.range num_levels).map fun l => levelInfoFor data l bs,
    bricks := bricks,
    total_size_bytes := (bricks.map fun b => b.byte_size).sum }

/-- Filesystem events observable during a build: one per brick file written
and one for the manifest. -/
inductive FsEvent where
  | brickWrite (level ix iy iz : ℕ)
  | manifestWrite
  deriving DecidableEq

/-- All brick coordinates of a build, in the order the nested loops of
src/convert_to_bricks.py:107-146 visit them. -/
def allBrickCoords (data : Volume) (bs : ℕ × ℕ × ℕ) (num_levels : ℕ) :
    List (ℕ × ℕ × ℕ × ℕ) :=
  (List.range num_levels).flatMap fun l =>
    let lv := levelVolume data l
    (List.range (numBricks lv.nx bs.1)).flatMap fun ix =>
      (List.range (numBricks lv.ny bs.2.1)).flatMap fun iy =>
        (List.range (numBricks lv.nz bs.2.2)).map fun iz => (l, ix, iy, iz)

/-- Sequential brick writing with a success oracle `ok` (indexed by write
number): each iteration of the loop either writes its brick file and
continues, or raises (oracle `false`), aborting the rest of the build — the
Python loop has no exception handler. -/
def writeBricksSeq (ok : ℕ → Bool) : List (ℕ × ℕ × ℕ × ℕ) → ℕ → List FsEvent × Bool
  | [], _ => ([], true)
  | c :: rest, idx =>
    if ok idx then
      let r := writeBricksSeq ok rest (idx + 1)
      (FsEvent.brickWrite c.1 c.2.1 c.2.2.1 c.2.2.2 :: r.1, r.2)
    else ([], false)

/-- Input as handed to `create_bricks` before the shape is destructured: a
numpy array of arbitrary rank. -/
structure NDArray where
  shape : List ℕ
  val : ℕ → ℕ → ℕ → ℚ

/-- Trace semantics of one whole build (src/convert_to_bricks.py:95-193):
`nx, ny, nz = current_data.shape` raises for a non-3D array, and a
zero-length axis makes the numpy reductions inside `normalize_data` raise; in
either case the build aborts before writing anything.  Otherwise the bricks
are written sequentially (each write may fail, aborting the build), and only
after every brick of every level succeeded is the manifest written, as the
final event.  Returns the ordered list of completed file writes and whether
the build completed. -/
def runBuild (arr : NDArray) (bs : ℕ × ℕ × ℕ) (num_levels : ℕ) (ok : ℕ → Bool) :
    List FsEvent × Bool :=
  match arr.shape with
  | [nx, ny, nz] =>
    if 0 < nx ∧ 0 < ny ∧ 0 < nz then
      let data := normalize_data
        { nx := nx, ny := ny, nz := nz, dtype := DType.float64, val := arr.val }
      let r := writeBricksSeq ok (allBrickCoords data bs num_levels) 0
      if r.2 then (r.1 ++ [FsEvent.manifestWrite], true) else (r.1, false)
    else ([], false)
  | _ => ([], false)

/-- Visible length of one brick file while the `with open(filepath, 'wb')`
block of src/convert_to_bricks.py:162-165 runs, after `steps` completed
operations: 0 = not yet opened (absent), 1 = opened (`'wb'` creates/truncates
to length 0), 2 = header written (12 bytes), 3 or more = payload written
(complete file). -/
def brickWriteFileLen (bf : BrickFile) (steps : ℕ) : Option ℕ :=
  match steps with
  | 0 => none
  | 1 => some 0
  | 2 => some 12
  | _ => some (byteSize bf)

/-- Clipped sample list appearing inside `normalize_data`. -/
def clipList (v : Volume) : List ℚ :=
  v.toList.map fun x => clip x (percentile v.toList 1) (percentile v.toList 99)

/-- Concrete 1×1×1 constant volume used as a witness input (the degenerate
scenario of spec §8). -/
def volConst1 : Volume := ⟨1, 1, 1, DType.float64, fun _ _ _ => 10⟩

/-- Concrete 1×1×2 two-valued volume used as a witness input with a
non-degenerate percentile range. -/
def volRamp : Volume := ⟨1, 1, 2, DType.float64, fun _ _ k => if k = 0 then 0 else 100⟩

/-- Number of bricks of all levels preceding level `L` in the flat manifest
brick list (each level contributes `total_bricks` records). -/
def levelOffset (data : Volume) (bs : ℕ × ℕ × ℕ) (L : ℕ) : ℕ :=
  ((List.range L).map fun l => (levelInfoFor data l bs).total_bricks).sum

/-- Concrete serialised brick used as a witness for the write-interruption
model. -/
def brickFileEx : BrickFile := serializeBrick volConst1 (2, 2, 2) 0 0 0

/-- Concrete 3D input array for the build-trace witnesses. -/
def arrEx : NDArray := ⟨[1, 1, 1], fun _ _ _ => 10⟩

/-- Oracle under which every write succeeds. -/
def okAll : ℕ → Bool := fun _ => true

/-! Helper lemmas about `listMin`, `listMax`, `Volume.toList` and `percentile`. -/

theorem foldlMin_le_init (l : List ℚ) : ∀ a : ℚ, l.foldl min a ≤ a := by
  induction l with
  | nil => intro a; simp
  | cons y ys ih =>
    intro a
    simp only [List.foldl_cons]
    exact le_trans (ih (min a y)) (min_le_left a y)

theorem foldlMin_le_mem (l : List ℚ) : ∀ (a x : ℚ), x ∈ l → l.foldl min a ≤ x := by
  induction l with
  | nil => intro a x hx; simp at hx
  | cons y ys ih =>
    intro a x hx
    simp only [List.foldl_cons]
    rcases List.mem_cons.mp hx with rfl | h2
    · exact le_trans (foldlMin_le_init ys (min a x)) (min_le_right a x)
    · exact ih (min a y) x h2

theorem foldlMin_mem_cons (l : List ℚ) : ∀ a : ℚ, l.foldl min a ∈ a :: l := by
  induction l with
  | nil => intro a; simp
  | cons y ys ih =>
    intro a
    simp only [List.foldl_cons]
    have h := ih (min a y)
    rcases List.mem_cons.mp h with heq | hmem
    · rw [heq]
      rcases min_choice a y with hc | hc
      · rw [hc]
        exact List.mem_cons_self _ _
      · rw [hc]
        exact List.mem_cons_of_mem _ (List.mem_cons_self _ _)
    · exact List.mem_cons_of_mem _ (List.mem_cons_of_mem _ hmem)

theorem le_foldlMax_init (l : List ℚ) : ∀ a : ℚ, a ≤ l.foldl max a := by
  induction l with
  | nil => intro a; simp
  | cons y ys ih =>
    intro a
    simp only [List.foldl_cons]
    exact le_trans (le_max_left a y) (ih (max a y))

theorem le_foldlMax_mem (l : List ℚ) : ∀ (a x : ℚ), x ∈ l → x ≤ l.foldl max a := by
  induction l with
  | nil => intro a x hx; simp at hx
  | cons y ys ih =>
    intro a x hx
    simp only [List.foldl_cons]
    rcases List.mem_cons.mp hx with rfl | h2
    · exact le_trans (le_max_right a x) (le_foldlMax_init ys (max a x))
    · exact ih (max a y) x h2

theorem foldlMax_mem_cons (l : List ℚ) : ∀ a : ℚ, l.foldl max a ∈ a :: l := by
  induction l with
  | nil => intro a; simp
  | cons y ys ih =>
    intro a
    simp only [List.foldl_cons]
    have h := ih (max a y)
    rcases List.mem_cons.mp h with heq | hmem
    · rw [heq]
      rcases max_choice a y with hc | hc
      · rw [hc]
        exact List.mem_cons_self _ _
      · rw [hc]
        exact List.mem_cons_of_mem _ (List.mem_cons_self _ _)
    · exact List.mem_cons_of_mem _ (List.mem_cons_of_mem _ hmem)

theorem listMin_mem {l : List ℚ} (h : l ≠ []) : listMin l ∈ l := by
  cases l with
  | nil => exact absurd rfl h
  | cons x xs => exact foldlMin_mem_cons xs x

theorem listMin_le {l : List ℚ} {x : ℚ} (h : x ∈ l) : listMin l ≤ x := by
  cases l with
  | nil => simp at h
  | cons y ys =>
    rcases List.mem_cons.mp h with rfl | h2
    · exact foldlMin_le_init ys x
    · exact foldlMin_le_mem ys y x h2

theorem listMax_mem {l : List ℚ} (h : l ≠ []) : listMax l ∈ l := by
  cases l with
  | nil => exact absurd rfl h
  | cons x xs => exact foldlMax_mem_cons xs x

theorem le_listMax {l : List ℚ} {x : ℚ} (h : x ∈ l) : x ≤ listMax l := by
  cases l with
  | nil => simp at h
  | cons y ys =>
    rcases List.mem_cons.mp h with rfl | h2
    · exact le_foldlMax_init ys x
    · exact le_foldlMax_mem ys y x h2

theorem val_mem_toList (v : Volume) {i j k : ℕ} (hi : i < v.nx) (hj : j < v.ny)
    (hk : k < v.nz) : v.val i j k ∈ v.toList := by
  unfold Volume.toList
  refine List.mem_flatMap.mpr ⟨i, List.mem_range.mpr hi, ?_⟩
  refine List.mem_flatMap.mpr ⟨j, List.mem_range.mpr hj, ?_⟩
  exact List.mem_map.mpr ⟨k, List.mem_range.mpr hk, rfl⟩

theorem toList_ne_nil (v : Volume) (hx : 0 < v.nx) (hy : 0 < v.ny) (hz : 0 < v.nz) :
    v.toList ≠ [] := by
  intro h
  have := val_mem_toList v hx hy hz
  rw [h] at this
  simp at this

/-- Linear-interpolation percentiles of a nonempty sample list stay between
the sample minimum and maximum, for any `q ∈ [0, 100]`. -/
theorem percentile_bounds (xs : List ℚ) (hne : xs ≠ []) (q : ℚ) (hq0 : 0 ≤ q)
    (hq1 : q ≤ 100) : listMin xs ≤ percentile xs q ∧ percentile xs q ≤ listMax xs := by
  have hperm : (List.insertionSort (· ≤ ·) xs).Perm xs := List.perm_insertionSort _ xs
  have hsorted : List.Sorted (· ≤ ·) (List.insertionSort (· ≤ ·) xs) :=
    List.sorted_insertionSort _ xs
  set s := List.insertionSort (· ≤ ·) xs with hs
  have hslen : 0 < s.length := by
    rw [hperm.length_eq]
    exact List.length_pos.mpr hne
  set n := s.length with hn
  set pos := q * ((n : ℚ) - 1) / 100 with hposdef
  have hn1 : (0 : ℚ) ≤ (n : ℚ) - 1 := by
    have h1 : (1 : ℚ) ≤ (n : ℚ) := by exact_mod_cast hslen
    linarith
  have hpos_nonneg : 0 ≤ pos := by
    rw [hposdef]
    positivity
  have hpos_le : pos ≤ (n : ℚ) - 1 := by
    rw [hposdef, div_le_iff₀ (by norm_num : (0 : ℚ) < 100)]
    nlinarith
  set i := (⌊pos⌋).toNat with hidef
  have hfloor_nonneg : (0 : ℤ) ≤ ⌊pos⌋ := Int.floor_nonneg.mpr hpos_nonneg
  have hicast : ((i : ℤ) : ℚ) = ((⌊pos⌋ : ℤ) : ℚ) := by
    rw [hidef, Int.toNat_of_nonneg hfloor_nonneg]
  have hi_le_pos : (i : ℚ) ≤ pos := by
    have h1 := Int.floor_le pos
    push_cast at hicast
    rw [hicast]
    exact h1
  have hpos_lt : pos < (i : ℚ) + 1 := by
    have h1 := Int.lt_floor_add_one pos
    push_cast at hicast
    rw [hicast]
    exact h1
  have hi_lt : i < n := by
    have h1 : (i : ℚ) < (n : ℚ) := by linarith
    exact_mod_cast h1
  have ha_eq : s.getD i 0 = s[i] := List.getD_eq_getElem s 0 hi_lt
  have hamem_s : s.getD i 0 ∈ s := by
    rw [ha_eq]
    exact List.getElem_mem hi_lt
  have hb : s.getD i 0 ≤ s.getD (i + 1) (s.getD i 0) ∧ s.getD (i + 1) (s.getD i 0) ∈ s := by
    by_cases hbi : i + 1 < n
    · have hb_eq : s.getD (i + 1) (s.getD i 0) = s[i + 1] :=
        List.getD_eq_getElem s (s.getD i 0) hbi
      constructor
      · rw [hb_eq, ha_eq]
        have := List.Sorted.rel_get_of_lt hsorted
          (a := ⟨i, hi_lt⟩) (b := ⟨i + 1, hbi⟩) (by simp)
        simpa [List.get_eq_getElem] using this
      · rw [hb_eq]
        exact List.getElem_mem hbi
    · have hdef : s.getD (i + 1) (s.getD i 0) = s.getD i 0 :=
        List.getD_eq_default s _ (by omega)
      refine ⟨le_of_eq hdef.symm, ?_⟩
      rw [hdef]
      exact hamem_s
  obtain ⟨hab_le, hbmem_s⟩ := hb
  have hfrac0 : 0 ≤ pos - (i : ℚ) := by linarith
  have hfrac1 : pos - (i : ℚ) ≤ 1 := by linarith
  have hamem : s.getD i 0 ∈ xs := hperm.mem_iff.mp hamem_s
  have hbmem : s.getD (i + 1) (s.getD i 0) ∈ xs := hperm.mem_iff.mp hbmem_s
  have hval_low : s.getD i 0 ≤ percentile xs q := by
    show s.getD i 0 ≤ _
    simp only [percentile]
    rw [← hs, ← hn, ← hposdef, ← hidef]
    nlinarith
  have hval_high : percentile xs q ≤ s.getD (i + 1) (s.getD i 0) := by
    simp only [percentile]
    rw [← hs, ← hn, ← hposdef, ← hidef]
    nlinarith
  exact ⟨le_trans (listMin_le hamem) hval_low, le_trans hval_high (le_listMax hbmem)⟩

theorem normalize_val_of_pos (v : Volume)
    (h : listMax (clipList v) - listMin (clipList v) > 0) (i j k : ℕ) :
    (normalize_data v).val i j k =
      2 * (clip (v.val i j k) (percentile v.toList 1) (percentile v.toList 99)
          - listMin (clipList v)) /
        (listMax (clipList v) - listMin (clipList v)) - 1 := by
  simp only [clipList] at h ⊢
  simp only [normalize_data]
  rw [if_pos h]

theorem normalize_val_of_nonpos (v : Volume)
    (h : ¬ listMax (clipList v) - listMin (clipList v) > 0) (i j k : ℕ) :
    (normalize_data v).val i j k = 0 := by
  simp only [clipList] at h
  simp only [normalize_data]
  rw [if_neg h]

theorem scale_bounds {m M c : ℚ} (h1 : m ≤ c) (h2 : c ≤ M) (h : 0 < M - m) :
    -1 ≤ 2 * (c - m) / (M - m) - 1 ∧ 2 * (c - m) / (M - m) - 1 ≤ 1 := by
  have h0 : 0 ≤ (c - m) / (M - m) := div_nonneg (by linarith) h.le
  have hle : (c - m) / (M - m) ≤ 1 := (div_le_one h).mpr (by linarith)
  rw [mul_div_assoc]
  constructor <;> linarith

/-- Claim C1: `normalize_data` preserves the shape and always outputs dtype
float32; whenever the clipped percentile range is non-degenerate
(`p1 < p99`), every output sample lies in `[-1, 1]`; when it collapses
(`p99 == p1`), the output volume is identically zero. -/
theorem claim_C1_normalize (v : Volume) (hx : 0 < v.nx) (hy : 0 < v.ny) (hz : 0 < v.nz) :
    ((normalize_data v).nx = v.nx ∧ (normalize_data v).ny = v.ny ∧
        (normalize_data v).nz = v.nz ∧ (normalize_data v).dtype = DType.float32) ∧
    (percentile v.toList 1 < percentile v.toList 99 →
      ∀ i j k, i < v.nx → j < v.ny → k < v.nz →
        -1 ≤ (normalize_data v).val i j k ∧ (normalize_data v).val i j k ≤ 1) ∧
    (percentile v.toList 99 = percentile v.toList 1 →
      ∀ i j k, (normalize_data v).val i j k = 0) := by
  have hne : v.toList ≠ [] := toList_ne_nil v hx hy hz
  refine ⟨⟨rfl, rfl, rfl, rfl⟩, ?_, ?_⟩
  · intro hlt i j k hi hj hk
    have hb1 := percentile_bounds v.toList hne 1 (by norm_num) (by norm_num)
    have hb99 := percentile_bounds v.toList hne 99 (by norm_num) (by norm_num)
    have hminmem : listMin v.toList ∈ v.toList := listMin_mem hne
    have hmaxmem : listMax v.toList ∈ v.toList := listMax_mem hne
    have hclipmin : clip (listMin v.toList) (percentile v.toList 1) (percentile v.toList 99)
        = percentile v.toList 1 := by
      unfold clip
      rw [max_eq_right hb1.1, min_eq_left (le_of_lt hlt)]
    have hclipmax : clip (listMax v.toList) (percentile v.toList 1) (percentile v.toList 99)
        = percentile v.toList 99 := by
      unfold clip
      rw [max_eq_left hb1.2, min_eq_right hb99.2]
    have hp1mem : percentile v.toList 1 ∈ clipList v := by
      rw [← hclipmin]
      exact List.mem_map_of_mem _ hminmem
    have hp99mem : percentile v.toList 99 ∈ clipList v := by
      rw [← hclipmax]
      exact List.mem_map_of_mem _ hmaxmem
    have hdlt : 0 < listMax (clipList v) - listMin (clipList v) := by
      have h1 : listMin (clipList v) ≤ percentile v.toList 1 := listMin_le hp1mem
      have h2 : percentile v.toList 99 ≤ listMax (clipList v) := le_listMax hp99mem
      linarith
    have hc_mem : clip (v.val i j k) (percentile v.toList 1) (percentile v.toList 99)
        ∈ clipList v := List.mem_map_of_mem _ (val_mem_toList v hi hj hk)
    have hc1 := listMin_le hc_mem
    have hc2 := le_listMax hc_mem
    rw [normalize_val_of_pos v (by linarith) i j k]
    exact scale_bounds hc1 hc2 hdlt
  · intro hdeg i j k
    have hcne : clipList v ≠ [] := by
      simp only [clipList]
      intro h
      rw [List.map_eq_nil_iff] at h
      exact hne h
    have hall : ∀ y ∈ clipList v, y = percentile v.toList 1 := by
      intro y hy
      obtain ⟨x, hxmem, rfl⟩ := List.mem_map.mp hy
      rw [hdeg]
      unfold clip
      exact min_eq_right (le_max_right x (percentile v.toList 1))
    have h1 : listMin (clipList v) = percentile v.toList 1 := hall _ (listMin_mem hcne)
    have h2 : listMax (clipList v) = percentile v.toList 1 := hall _ (listMax_mem hcne)
    refine normalize_val_of_nonpos v ?_ i j k
    rw [h1, h2]
    simp

/-- Claim C2: for every level `k > 0` with scale `s = 2^k`, the level-`k`
volume is computed directly from the level-0 volume (`levelVolume v 0 = v`),
its dimensions are `floor(dim / 2^k)` per axis (truncation to a multiple of
`s` followed by the blocked reshape), and each voxel is the arithmetic mean
of its `s × s × s` block of the level-0 volume. -/
theorem claim_C2_pyramid (v : Volume) (k : ℕ) (hk : 0 < k) :
    ((levelVolume v k).nx = v.nx / 2 ^ k ∧ (levelVolume v k).ny = v.ny / 2 ^ k ∧
        (levelVolume v k).nz = v.nz / 2 ^ k) ∧
    (∀ i j l, (levelVolume v k).val i j l =
      (∑ a ∈ Finset.range (2 ^ k), ∑ b ∈ Finset.range (2 ^ k), ∑ c ∈ Finset.range (2 ^ k),
          (levelVolume v 0).val (i * 2 ^ k + a) (j * 2 ^ k + b) (l * 2 ^ k + c))
        / ((2 ^ k : ℕ) : ℚ) ^ 3) := by
  have hfac : ¬ (2 ^ k ≤ 1) := by
    have h2 : 2 ^ 1 ≤ 2 ^ k := Nat.pow_le_pow_right (by norm_num) hk
    omega
  have hpos : 0 < 2 ^ k := Nat.pos_pow_of_pos k (by norm_num)
  have hlvl : levelVolume v k = downsample_volume v (2 ^ k) := by
    unfold levelVolume
    rw [if_neg (by omega)]
  have hlvl0 : levelVolume v 0 = v := by
    unfold levelVolume
    rw [if_pos rfl]
  rw [hlvl, hlvl0]
  unfold downsample_volume
  rw [if_neg hfac]
  refine ⟨⟨?_, ?_, ?_⟩, ?_⟩
  · exact Nat.mul_div_cancel _ hpos
  · exact Nat.mul_div_cancel _ hpos
  · exact Nat.mul_div_cancel _ hpos
  · intro i j l
    rfl

theorem claim_C2_witness :
    0 < 1 ∧ ((levelVolume volConst1 1).nx = volConst1.nx / 2 ^ 1 ∧
      (levelVolume volConst1 1).ny = volConst1.ny / 2 ^ 1 ∧
      (levelVolume volConst1 1).nz = volConst1.nz / 2 ^ 1) :=
  ⟨by decide, (claim_C2_pyramid volConst1 1 (by decide)).1⟩

/-- One-axis tiling: every in-range coordinate lies in exactly one brick
interval of the grid computed by `numBricks`, the unique brick index being
`c / b`. -/
theorem tile_one_axis {n b : ℕ} (hb : 0 < b) {c : ℕ} (hc : c < n) :
    ∃! i : ℕ, i < numBricks n b ∧ brickLo i b ≤ c ∧ c < brickHi i b n := by
  have hdm := Nat.div_add_mod c b
  have hmlt : c % b < b := Nat.mod_lt c hb
  refine ⟨c / b, ⟨?_, ?_, ?_⟩, ?_⟩
  · unfold numBricks
    have h2 : (n + b - 1) / b = (n - 1) / b + 1 := by
      have h3 : n + b - 1 = (n - 1) + b := by omega
      rw [h3, Nat.add_div_right _ hb]
    rw [h2]
    have h4 : c / b ≤ (n - 1) / b := Nat.div_le_div_right (by omega)
    omega
  · unfold brickLo
    exact Nat.div_mul_le_self c b
  · unfold brickHi
    have h5 : (c / b + 1) * b = b * (c / b) + b := by ring
    have h6 : c < (c / b + 1) * b := by omega
    exact lt_min h6 hc
  · intro i2 hi2
    obtain ⟨hcnt, hlo, hhi⟩ := hi2
    unfold brickLo at hlo
    unfold brickHi at hhi
    have h7 : c < (i2 + 1) * b := lt_of_lt_of_le hhi (min_le_left _ _)
    exact (Nat.div_eq_of_lt_le hlo h7).symm

/-- Ceiling-division characterisation of `numBricks`:
`(n + b - 1) // b = ⌈n / b⌉`. -/
theorem numBricks_eq_ceil {n b : ℕ} (hb : 0 < b) :
    (numBricks n b : ℤ) = ⌈(n : ℚ) / (b : ℚ)⌉ := by
  have hbq : (0 : ℚ) < (b : ℚ) := by exact_mod_cast hb
  rcases Nat.eq_zero_or_pos n with hn0 | hnpos
  · subst hn0
    have hnb : numBricks 0 b = 0 := by
      unfold numBricks
      rw [Nat.zero_add]
      exact Nat.div_eq_of_lt (by omega)
    rw [hnb]
    symm
    rw [Int.ceil_eq_iff]
    push_cast
    norm_num
  · have h2 : numBricks n b = (n - 1) / b + 1 := by
      unfold numBricks
      have h3 : n + b - 1 = (n - 1) + b := by omega
      rw [h3, Nat.add_div_right _ hb]
    have hA : ((n - 1) / b) * b < n := by
      have h := Nat.div_add_mod (n - 1) b
      have h9 : ((n - 1) / b) * b = b * ((n - 1) / b) := by ring
      omega
    have hB : n ≤ ((n - 1) / b + 1) * b := by
      have h := Nat.div_add_mod (n - 1) b
      have hm := Nat.mod_lt (n - 1) hb
      have h9 : ((n - 1) / b + 1) * b = b * ((n - 1) / b) + b := by ring
      omega
    rw [h2]
    symm
    rw [Int.ceil_eq_iff]
    have hz : ((((n - 1) / b + 1 : ℕ) : ℤ) : ℚ) = (((n - 1) / b : ℕ) : ℚ) + 1 := by
      rw [Int.cast_natCast, Nat.cast_add, Nat.cast_one]
    constructor
    · have hAq : (((n - 1) / b : ℕ) : ℚ) * ((b : ℕ) : ℚ) < ((n : ℕ) : ℚ) := by
        exact_mod_cast hA
      rw [hz]
      have h13 : (((n - 1) / b : ℕ) : ℚ) + 1 - 1 = (((n - 1) / b : ℕ) : ℚ) := by ring
      rw [h13, lt_div_iff₀ hbq]
      exact hAq
    · have hBq : ((n : ℕ) : ℚ) ≤ (((n - 1) / b + 1 : ℕ) : ℚ) * ((b : ℕ) : ℚ) := by
        exact_mod_cast hB
      rw [hz, div_le_iff₀ hbq]
      have h14 : (((n - 1) / b + 1 : ℕ) : ℚ) = (((n - 1) / b : ℕ) : ℚ) + 1 := by
        rw [Nat.cast_add, Nat.cast_one]
      rw [h14] at hBq
      exact hBq

/-- Witness for claim C1: the two-valued volume has a non-degenerate
percentile range, and its normalized samples are within bounds. -/
theorem claim_C1_witness :
    percentile volRamp.toList 1 < percentile volRamp.toList 99 ∧
    (-1 ≤ (normalize_data volRamp).val 0 0 1 ∧ (normalize_data volRamp).val 0 0 1 ≤ 1) := by
  have hlist : volRamp.toList = [0, 100] := rfl
  have hsort : List.insertionSort (· ≤ ·) [(0 : ℚ), 100] = [0, 100] := rfl
  have hp1 : percentile volRamp.toList 1 = 1 := by
    rw [hlist]
    simp only [percentile, hsort]
    have hpos : (1 : ℚ) * ((([(0 : ℚ), 100]).length : ℚ) - 1) / 100 = 1 / 100 := by
      norm_num
    rw [hpos]
    have hfloor : (⌊(1 : ℚ) / 100⌋).toNat = 0 := by norm_num [Int.floor_eq_iff]
    rw [hfloor]
    simp [List.getD]
  have hp99 : percentile volRamp.toList 99 = 99 := by
    rw [hlist]
    simp only [percentile, hsort]
    have hpos : (99 : ℚ) * ((([(0 : ℚ), 100]).length : ℚ) - 1) / 100 = 99 / 100 := by
      norm_num
    rw [hpos]
    have hfloor : (⌊(99 : ℚ) / 100⌋).toNat = 0 := by norm_num [Int.floor_eq_iff]
    rw [hfloor]
    simp [List.getD]
  have hlt : percentile volRamp.toList 1 < percentile volRamp.toList 99 := by
    rw [hp1, hp99]
    norm_num
  exact ⟨hlt, (claim_C1_normalize volRamp (by decide) (by decide) (by decide)).2.1 hlt
    0 0 1 (by decide) (by decide) (by decide)⟩

/-- Claim C3: the per-axis brick counts computed by `create_bricks` are exact
ceiling divisions, and the brick source regions
`[ix*bx, min((ix+1)*bx, nx)) × ...` tile the level volume exactly: every
in-range coordinate lies in exactly one brick region. -/
theorem claim_C3_partition (nx ny nz b1 b2 b3 : ℕ)
    (h1 : 0 < b1) (h2 : 0 < b2) (h3 : 0 < b3) :
    ((numBricks nx b1 : ℤ) = ⌈(nx : ℚ) / (b1 : ℚ)⌉ ∧
      (numBricks ny b2 : ℤ) = ⌈(ny : ℚ) / (b2 : ℚ)⌉ ∧
      (numBricks nz b3 : ℤ) = ⌈(nz : ℚ) / (b3 : ℚ)⌉) ∧
    ∀ cx cy cz, cx < nx → cy < ny → cz < nz →
      ∃! t : ℕ × ℕ × ℕ,
        (t.1 < numBricks nx b1 ∧ t.2.1 < numBricks ny b2 ∧ t.2.2 < numBricks nz b3) ∧
        (brickLo t.1 b1 ≤ cx ∧ cx < brickHi t.1 b1 nx) ∧
        (brickLo t.2.1 b2 ≤ cy ∧ cy < brickHi t.2.1 b2 ny) ∧
        (brickLo t.2.2 b3 ≤ cz ∧ cz < brickHi t.2.2 b3 nz) := by
  refine ⟨⟨numBricks_eq_ceil h1, numBricks_eq_ceil h2, numBricks_eq_ceil h3⟩, ?_⟩
  intro cx cy cz hcx hcy hcz
  obtain ⟨ix, hixP, hixU⟩ := tile_one_axis h1 hcx
  obtain ⟨iy, hiyP, hiyU⟩ := tile_one_axis h2 hcy
  obtain ⟨iz, hizP, hizU⟩ := tile_one_axis h3 hcz
  refine ⟨(ix, iy, iz), ⟨⟨hixP.1, hiyP.1, hizP.1⟩, ⟨hixP.2.1, hixP.2.2⟩,
    ⟨hiyP.2.1, hiyP.2.2⟩, ⟨hizP.2.1, hizP.2.2⟩⟩, ?_⟩
  rintro ⟨jx, jy, jz⟩ ⟨⟨hj1, hj2, hj3⟩, ⟨hj4, hj5⟩, ⟨hj6, hj7⟩, ⟨hj8, hj9⟩⟩
  have ex : jx = ix := hixU jx ⟨hj1, hj4, hj5⟩
  have ey : jy = iy := hiyU jy ⟨hj2, hj6, hj7⟩
  have ez : jz = iz := hizU jz ⟨hj3, hj8, hj9⟩
  simp [ex, ey, ez]

/-- Witness for claim C3 at the 5×5×5 volume with brick size 4 (spec §8
scenario): coordinate (4,4,4) lies in exactly one brick. -/
theorem claim_C3_witness :
    (0 : ℕ) < 4 ∧
    ∃! t : ℕ × ℕ × ℕ,
      (t.1 < numBricks 5 4 ∧ t.2.1 < numBricks 5 4 ∧ t.2.2 < numBricks 5 4) ∧
      (brickLo t.1 4 ≤ 4 ∧ 4 < brickHi t.1 4 5) ∧
      (brickLo t.2.1 4 ≤ 4 ∧ 4 < brickHi t.2.1 4 5) ∧
      (brickLo t.2.2 4 ≤ 4 ∧ 4 < brickHi t.2.2 4 5) :=
  ⟨by decide, (claim_C3_partition 5 5 5 4 4 4 (by decide) (by decide) (by decide)).2
    4 4 4 (by decide) (by decide) (by decide)⟩

theorem length_flatMap_range_const {α : Type} :
    ∀ (n : ℕ) (f : ℕ → List α) (m : ℕ), (∀ t, (f t).length = m) →
      ((List.range n).flatMap f).length = n * m := by
  intro n
  induction n with
  | zero => intro f m h; simp
  | succ n ih =>
    intro f m h
    rw [List.range_succ, List.flatMap_append, List.length_append, ih f m h,
      List.flatMap_cons, List.flatMap_nil, List.append_nil, h n]
    ring

theorem getElem?_flatMap_range_const {α : Type} :
    ∀ (n : ℕ) (f : ℕ → List α) (m i k : ℕ), (∀ t, (f t).length = m) → i < n → k < m →
      ((List.range n).flatMap f)[i * m + k]? = (f i)[k]? := by
  intro n
  induction n with
  | zero => intro f m i k _ hi _; exact absurd hi (Nat.not_lt_zero i)
  | succ n ih =>
    intro f m i k hlen hi hk
    rw [List.range_succ_eq_map, List.flatMap_cons, List.flatMap_map]
    cases i with
    | zero =>
      rw [Nat.zero_mul, Nat.zero_add]
      rw [List.getElem?_append_left (by rw [hlen 0]; exact hk)]
    | succ i2 =>
      have hidx : (i2 + 1) * m + k = (f 0).length + (i2 * m + k) := by
        rw [hlen 0]
        ring
      rw [hidx, List.getElem?_append_right (by omega), Nat.add_sub_cancel_left]
      exact ih (fun a => f (a + 1)) m i2 k (fun t => hlen (t + 1)) (by omega) hk

theorem flatten3_length (n1 n2 n3 : ℕ) (f : ℕ → ℕ → ℕ → ℚ) :
    (flatten3 n1 n2 n3 f).length = n1 * (n2 * n3) := by
  unfold flatten3
  refine length_flatMap_range_const n1 _ (n2 * n3) ?_
  intro t
  refine length_flatMap_range_const n2 _ n3 ?_
  intro t2
  simp

theorem flatten3_getElem (n1 n2 n3 : ℕ) (f : ℕ → ℕ → ℕ → ℚ) {i j k : ℕ}
    (hi : i < n1) (hj : j < n2) (hk : k < n3) :
    (flatten3 n1 n2 n3 f)[(i * n2 + j) * n3 + k]? = some (f i j k) := by
  unfold flatten3
  have hlen : ∀ t, ((List.range n2).flatMap fun j2 =>
      (List.range n3).map fun k2 => f t j2 k2).length = n2 * n3 := by
    intro t
    refine length_flatMap_range_const n2 _ n3 ?_
    intro t2
    simp
  have hidx : (i * n2 + j) * n3 + k = i * (n2 * n3) + (j * n3 + k) := by ring
  have hjk : j * n3 + k < n2 * n3 := by
    have e1 : (j + 1) * n3 ≤ n2 * n3 := Nat.mul_le_mul_right n3 (by omega)
    have e2 : (j + 1) * n3 = j * n3 + n3 := by ring
    omega
  rw [hidx, getElem?_flatMap_range_const n1 _ (n2 * n3) i (j * n3 + k) hlen hi hjk]
  have hlen2 : ∀ t, ((List.range n3).map fun k2 => f i t k2).length = n3 := by
    intro t
    simp
  rw [getElem?_flatMap_range_const n2 _ n3 j k hlen2 hj hk]
  rw [List.getElem?_map, List.getElem?_range hk]
  rfl

theorem brickPayloadVal_eq (v : Volume) (bs : ℕ × ℕ × ℕ) (ix iy iz : ℕ) {i j k : ℕ}
    (hi : i < bs.1) (hj : j < bs.2.1) (hk : k < bs.2.2) :
    brickPayloadVal v bs ix iy iz i j k =
      if i < brickExtent ix bs.1 v.nx ∧ j < brickExtent iy bs.2.1 v.ny ∧
          k < brickExtent iz bs.2.2 v.nz
      then v.val (brickLo ix bs.1 + i) (brickLo iy bs.2.1 + j) (brickLo iz bs.2.2 + k)
      else 0 := by
  simp only [brickPayloadVal]
  by_cases hcase : (brickExtent ix bs.1 v.nx, brickExtent iy bs.2.1 v.ny,
      brickExtent iz bs.2.2 v.nz) = bs
  · rw [if_pos hcase]
    have h1 := congrArg Prod.fst hcase
    have h2 := congrArg (fun p : ℕ × ℕ × ℕ => p.2.1) hcase
    have h3 := congrArg (fun p : ℕ × ℕ × ℕ => p.2.2) hcase
    simp only at h1 h2 h3
    rw [if_pos ⟨by omega, by omega, by omega⟩]
  · rw [if_neg hcase]
    rfl

/-- Claim C4: every serialised brick file has byte length
`12 + 4*bx*by*bz` regardless of the actual extent; its header is the three
int32 actual extents (x, y, z order); and its payload, indexed row-major
(`(i*by + j)*bz + k`, z fastest), holds the source block in the
top-left-front corner of a zero-initialised nominal-size buffer. -/
theorem claim_C4_brick_format (v : Volume) (bs : ℕ × ℕ × ℕ) (ix iy iz : ℕ) :
    byteSize (serializeBrick v bs ix iy iz) = 12 + 4 * (bs.1 * bs.2.1 * bs.2.2) ∧
    (serializeBrick v bs ix iy iz).header =
      ((brickExtent ix bs.1 v.nx : ℤ), (brickExtent iy bs.2.1 v.ny : ℤ),
        (brickExtent iz bs.2.2 v.nz : ℤ)) ∧
    ∀ i j k, i < bs.1 → j < bs.2.1 → k < bs.2.2 →
      (serializeBrick v bs ix iy iz).payload[(i * bs.2.1 + j) * bs.2.2 + k]? =
        some (if i < brickExtent ix bs.1 v.nx ∧ j < brickExtent iy bs.2.1 v.ny ∧
            k < brickExtent iz bs.2.2 v.nz
          then v.val (brickLo ix bs.1 + i) (brickLo iy bs.2.1 + j) (brickLo iz bs.2.2 + k)
          else 0) := by
  refine ⟨?_, rfl, ?_⟩
  · show 3 * 4 + 4 * (flatten3 bs.1 bs.2.1 bs.2.2 (brickPayloadVal v bs ix iy iz)).length = _
    rw [flatten3_length]
    ring
  · intro i j k hi hj hk
    show (flatten3 bs.1 bs.2.1 bs.2.2
      (brickPayloadVal v bs ix iy iz))[(i * bs.2.1 + j) * bs.2.2 + k]? = _
    rw [flatten3_getElem _ _ _ _ hi hj hk, brickPayloadVal_eq v bs ix iy iz hi hj hk]

/-- Witness for claim C4 at a concrete ragged brick. -/
theorem claim_C4_witness :
    byteSize (serializeBrick volConst1 (2, 2, 2) 0 0 0) = 12 + 4 * (2 * 2 * 2) ∧
    (serializeBrick volConst1 (2, 2, 2) 0 0 0).payload[(0 * 2 + 0) * 2 + 0]? =
      some (if 0 < brickExtent 0 2 volConst1.nx ∧ 0 < brickExtent 0 2 volConst1.ny ∧
          0 < brickExtent 0 2 volConst1.nz
        then volConst1.val (brickLo 0 2 + 0) (brickLo 0 2 + 0) (brickLo 0 2 + 0)
        else 0) :=
  ⟨(claim_C4_brick_format volConst1 (2, 2, 2) 0 0 0).1,
    (claim_C4_brick_format volConst1 (2, 2, 2) 0 0 0).2.2 0 0 0
      (by decide) (by decide) (by decide)⟩

/-- Claim C5: reading back a written brick and trimming the payload to the
actual extent stored in the header reproduces the original pre-padding block
values exactly. -/
theorem claim_C5_roundtrip (v : Volume) (bs : ℕ × ℕ × ℕ) (ix iy iz i j k : ℕ)
    (hi : i < brickExtent ix bs.1 v.nx) (hj : j < brickExtent iy bs.2.1 v.ny)
    (hk : k < brickExtent iz bs.2.2 v.nz) :
    readTrimmedVal (serializeBrick v bs ix iy iz) bs i j k =
      v.val (brickLo ix bs.1 + i) (brickLo iy bs.2.1 + j) (brickLo iz bs.2.2 + k) := by
  have hex : brickExtent ix bs.1 v.nx ≤ bs.1 := by
    unfold brickExtent brickHi brickLo
    have h := min_le_left ((ix + 1) * bs.1) v.nx
    have h2 : (ix + 1) * bs.1 = ix * bs.1 + bs.1 := by ring
    omega
  have hey : brickExtent iy bs.2.1 v.ny ≤ bs.2.1 := by
    unfold brickExtent brickHi brickLo
    have h := min_le_left ((iy + 1) * bs.2.1) v.ny
    have h2 : (iy + 1) * bs.2.1 = iy * bs.2.1 + bs.2.1 := by ring
    omega
  have hez : brickExtent iz bs.2.2 v.nz ≤ bs.2.2 := by
    unfold brickExtent brickHi brickLo
    have h := min_le_left ((iz + 1) * bs.2.2) v.nz
    have h2 : (iz + 1) * bs.2.2 = iz * bs.2.2 + bs.2.2 := by ring
    omega
  have hib : i < bs.1 := lt_of_lt_of_le hi hex
  have hjb : j < bs.2.1 := lt_of_lt_of_le hj hey
  have hkb : k < bs.2.2 := lt_of_lt_of_le hk hez
  unfold readTrimmedVal
  rw [List.getD_eq_getElem?_getD]
  have hpl : (serializeBrick v bs ix iy iz).payload =
      flatten3 bs.1 bs.2.1 bs.2.2 (brickPayloadVal v bs ix iy iz) := rfl
  rw [hpl, flatten3_getElem _ _ _ _ hib hjb hkb,
    brickPayloadVal_eq v bs ix iy iz hib hjb hkb, if_pos ⟨hi, hj, hk⟩]
  rfl

/-- Witness for claim C5 at a concrete ragged brick. -/
theorem claim_C5_witness :
    0 < brickExtent 0 2 volConst1.nx ∧
    readTrimmedVal (serializeBrick volConst1 (2, 2, 2) 0 0 0) (2, 2, 2) 0 0 0 =
      volConst1.val (brickLo 0 2 + 0) (brickLo 0 2 + 0) (brickLo 0 2 + 0) :=
  ⟨by decide, claim_C5_roundtrip volConst1 (2, 2, 2) 0 0 0 0 0 0
    (by decide) (by decide) (by decide)⟩

theorem countP_range_eq_one (p : ℕ → Bool) :
    ∀ (n t : ℕ), t < n → (∀ i, i < n → (p i = true ↔ i = t)) →
      (List.range n).countP p = 1 := by
  intro n
  induction n with
  | zero => intro t ht _; omega
  | succ n ih =>
    intro t ht hp
    rw [List.range_succ, List.countP_append]
    by_cases hcase : t = n
    · have h0 : (List.range n).countP p = 0 := by
        rw [List.countP_eq_zero]
        intro a ha
        rw [List.mem_range] at ha
        intro hpa
        have h5 := (hp a (by omega)).mp hpa
        omega
      have h1 : List.countP p [n] = 1 := by
        rw [List.countP_cons, List.countP_nil, if_pos ((hp n (by omega)).mpr hcase.symm)]
      omega
    · have h1 : (List.range n).countP p = 1 := ih t (by omega) (fun i hi => hp i (by omega))
      have h2 : List.countP p [n] = 0 := by
        rw [List.countP_eq_zero]
        intro a ha
        rw [List.mem_singleton] at ha
        intro hpa
        have h6 := (hp a (by omega)).mp hpa
        omega
      omega

theorem countP_flatMap_range {α : Type} (p : α → Bool) (f : ℕ → List α) :
    ∀ (n t : ℕ), t < n → (f t).countP p = 1 →
      (∀ i, i < n → i ≠ t → (f i).countP p = 0) →
      ((List.range n).flatMap f).countP p = 1 := by
  intro n
  induction n with
  | zero => intro t ht _ _; omega
  | succ n ih =>
    intro t ht h1 h0
    rw [List.range_succ, List.flatMap_append, List.countP_append,
      List.flatMap_cons, List.flatMap_nil, List.append_nil]
    by_cases hcase : t = n
    · have hz : ((List.range n).flatMap f).countP p = 0 := by
        rw [List.countP_eq_zero]
        intro a ha
        rw [List.mem_flatMap] at ha
        obtain ⟨i, hi, hai⟩ := ha
        rw [List.mem_range] at hi
        have hzi := h0 i (by omega) (by omega)
        rw [List.countP_eq_zero] at hzi
        exact hzi a hai
      have h1n : (f n).countP p = 1 := by
        rw [← hcase]
        exact h1
      omega
    · have hz : ((List.range n).flatMap f).countP p = 1 :=
        ih t (by omega) h1 (fun i hi hne => h0 i (by omega) hne)
      have hn : (f n).countP p = 0 := h0 n (by omega) (fun h => hcase h.symm)
      omega

theorem bricksForLevel_mem {data : Volume} {l : ℕ} {bs : ℕ × ℕ × ℕ} {b2 : BrickInfo}
    (h : b2 ∈ bricksForLevel data l bs) :
    b2.level = l ∧ b2.x < numBricks (levelVolume data l).nx bs.1 ∧
      b2.y < numBricks (levelVolume data l).ny bs.2.1 ∧
      b2.z < numBricks (levelVolume data l).nz bs.2.2 := by
  simp only [bricksForLevel] at h
  rw [List.mem_flatMap] at h
  obtain ⟨ix, hix, h⟩ := h
  rw [List.mem_flatMap] at h
  obtain ⟨iy, hiy, h⟩ := h
  rw [List.mem_map] at h
  obtain ⟨iz, hiz, rfl⟩ := h
  rw [List.mem_range] at hix hiy hiz
  exact ⟨rfl, hix, hiy, hiz⟩

theorem countP_bricksForLevel_hit (data : Volume) (L : ℕ) (bs : ℕ × ℕ × ℕ)
    {ix iy iz : ℕ} (hx : ix < numBricks (levelVolume data L).nx bs.1)
    (hy : iy < numBricks (levelVolume data L).ny bs.2.1)
    (hz : iz < numBricks (levelVolume data L).nz bs.2.2) :
    (bricksForLevel data L bs).countP
      (fun b2 => decide (b2.level = L ∧ b2.x = ix ∧ b2.y = iy ∧ b2.z = iz)) = 1 := by
  simp only [bricksForLevel]
  refine countP_flatMap_range _ _ _ ix hx ?_ ?_
  · refine countP_flatMap_range _ _ _ iy hy ?_ ?_
    · rw [List.countP_map]
      refine countP_range_eq_one _ _ iz hz ?_
      intro i hi
      simp [brickInfoAt]
    · intro i hi hne
      rw [List.countP_map, List.countP_eq_zero]
      intro a ha
      simp only [Function.comp, brickInfoAt, decide_eq_true_eq]
      intro hconj
      exact hne hconj.2.2.1
  · intro i hi hne
    rw [List.countP_eq_zero]
    intro a ha
    rw [List.mem_flatMap] at ha
    obtain ⟨iy2, hiy2, ha⟩ := ha
    rw [List.mem_map] at ha
    obtain ⟨iz2, hiz2, rfl⟩ := ha
    simp only [brickInfoAt, decide_eq_true_eq]
    intro hconj
    exact hne hconj.2.1

/-- Claim C6: in the emitted manifest, `total_size_bytes` is the sum of all
brick `byte_size` fields; every brick record carries in-range grid
coordinates; and every in-range `(level, x, y, z)` quadruple occurs exactly
once in the flat brick list. -/
theorem claim_C6_manifest (v : Volume) (bs : ℕ × ℕ × ℕ) (nl : ℕ) :
    (create_bricks v bs nl).total_size_bytes =
      ((create_bricks v bs nl).bricks.map fun b2 => b2.byte_size).sum ∧
    (∀ b2 ∈ (create_bricks v bs nl).bricks,
      b2.level < nl ∧
      b2.x < numBricks (levelVolume (normalize_data v) b2.level).nx bs.1 ∧
      b2.y < numBricks (levelVolume (normalize_data v) b2.level).ny bs.2.1 ∧
      b2.z < numBricks (levelVolume (normalize_data v) b2.level).nz bs.2.2) ∧
    (∀ L ix iy iz, L < nl →
      ix < numBricks (levelVolume (normalize_data v) L).nx bs.1 →
      iy < numBricks (levelVolume (normalize_data v) L).ny bs.2.1 →
      iz < numBricks (levelVolume (normalize_data v) L).nz bs.2.2 →
      (create_bricks v bs nl).bricks.countP
        (fun b2 => decide (b2.level = L ∧ b2.x = ix ∧ b2.y = iy ∧ b2.z = iz)) = 1) := by
  have hbr : (create_bricks v bs nl).bricks =
      (List.range nl).flatMap fun l => bricksForLevel (normalize_data v) l bs := rfl
  refine ⟨rfl, ?_, ?_⟩
  · intro b2 hb2
    rw [hbr, List.mem_flatMap] at hb2
    obtain ⟨l, hl, hmem⟩ := hb2
    rw [List.mem_range] at hl
    obtain ⟨hlev, hx, hy, hz⟩ := bricksForLevel_mem hmem
    rw [hlev]
    exact ⟨hl, hx, hy, hz⟩
  · intro L ix iy iz hL hx hy hz
    rw [hbr]
    refine countP_flatMap_range _ _ nl L hL ?_ ?_
    · exact countP_bricksForLevel_hit (normalize_data v) L bs hx hy hz
    · intro i hi hne
      rw [List.countP_eq_zero]
      intro a ha
      obtain ⟨hlev, _, _, _⟩ := bricksForLevel_mem ha
      simp only [decide_eq_true_eq]
      intro hconj
      rcases hconj with ⟨h1, _⟩
      omega

/-- Witness for claim C6 at a concrete one-level build. -/
theorem claim_C6_witness :
    (0 : ℕ) < 1 ∧
    (create_bricks volConst1 (2, 2, 2) 1).bricks.countP
      (fun b2 => decide (b2.level = 0 ∧ b2.x = 0 ∧ b2.y = 0 ∧ b2.z = 0)) = 1 :=
  ⟨by decide, (claim_C6_manifest volConst1 (2, 2, 2) 1).2.2 0 0 0 0
    (by decide) (by decide) (by decide) (by decide)⟩

theorem numBricks_zero (b : ℕ) : numBricks 0 b = 0 := by
  unfold numBricks
  rcases Nat.eq_zero_or_pos b with h | h
  · subst h
    rfl
  · rw [Nat.zero_add]
    exact Nat.div_eq_of_lt (by omega)

theorem levelVolume_dims (data : Volume) (k : ℕ) (hk : 0 < k) :
    (levelVolume data k).nx = data.nx / 2 ^ k ∧ (levelVolume data k).ny = data.ny / 2 ^ k ∧
      (levelVolume data k).nz = data.nz / 2 ^ k := by
  have hfac : ¬ (2 ^ k ≤ 1) := by
    have h2 : 2 ^ 1 ≤ 2 ^ k := Nat.pow_le_pow_right (by norm_num) hk
    omega
  have hpos : 0 < 2 ^ k := Nat.pos_pow_of_pos k (by norm_num)
  unfold levelVolume
  rw [if_neg (by omega : ¬ k = 0)]
  unfold downsample_volume
  rw [if_neg hfac]
  exact ⟨Nat.mul_div_cancel _ hpos, Nat.mul_div_cancel _ hpos, Nat.mul_div_cancel _ hpos⟩

/-- Counterexample to claim C7: on a 1×1×1 input with two requested levels,
the build emits a level record (level 1) whose dimensions are all zero — a
silently produced empty level rather than one with at least one voxel per
axis or an explicit omission. -/
theorem claim_C7_counterexample :
    ¬ (∀ li ∈ (create_bricks volConst1 (2, 2, 2) 2).levels,
        0 < li.dimensions.1 ∧ 0 < li.dimensions.2.1 ∧ 0 < li.dimensions.2.2) := by
  decide

/-- Claim C7 as amended: when some axis of the input is smaller than the
scale factor `2^k` of a requested level `0 < k < num_levels`, the build still
emits a level record at index `k` — silently — whose dimension on that axis
is zero and whose `total_bricks` is zero; the level is neither produced with
at least one voxel per axis nor explicitly omitted. -/
theorem claim_C7_amended (v : Volume) (bs : ℕ × ℕ × ℕ) (nl k : ℕ)
    (hk0 : 0 < k) (hknl : k < nl)
    (hdeg : v.nx < 2 ^ k ∨ v.ny < 2 ^ k ∨ v.nz < 2 ^ k) :
    ∃ li, (create_bricks v bs nl).levels[k]? = some li ∧ li.level = k ∧
      (li.dimensions.1 = 0 ∨ li.dimensions.2.1 = 0 ∨ li.dimensions.2.2 = 0) ∧
      li.total_bricks = 0 := by
  obtain ⟨hdx, hdy, hdz⟩ := levelVolume_dims (normalize_data v) k hk0
  have hnx : (normalize_data v).nx = v.nx := rfl
  have hny : (normalize_data v).ny = v.ny := rfl
  have hnz : (normalize_data v).nz = v.nz := rfl
  have hlv : (create_bricks v bs nl).levels =
      (List.range nl).map fun l => levelInfoFor (normalize_data v) l bs := rfl
  have hget : (create_bricks v bs nl).levels[k]? =
      some (levelInfoFor (normalize_data v) k bs) := by
    rw [hlv, List.getElem?_map, List.getElem?_range hknl]
    rfl
  refine ⟨levelInfoFor (normalize_data v) k bs, hget, rfl, ?_, ?_⟩
  · rcases hdeg with h | h | h
    · left
      show (levelVolume (normalize_data v) k).nx = 0
      rw [hdx, hnx]
      exact Nat.div_eq_of_lt h
    · right
      left
      show (levelVolume (normalize_data v) k).ny = 0
      rw [hdy, hny]
      exact Nat.div_eq_of_lt h
    · right
      right
      show (levelVolume (normalize_data v) k).nz = 0
      rw [hdz, hnz]
      exact Nat.div_eq_of_lt h
  · show numBricks (levelVolume (normalize_data v) k).nx bs.1 *
        numBricks (levelVolume (normalize_data v) k).ny bs.2.1 *
        numBricks (levelVolume (normalize_data v) k).nz bs.2.2 = 0
    rcases hdeg with h | h | h
    · rw [hdx, hnx, Nat.div_eq_of_lt h, numBricks_zero]
      simp
    · rw [hdy, hny, Nat.div_eq_of_lt h, numBricks_zero]
      simp
    · rw [hdz, hnz, Nat.div_eq_of_lt h, numBricks_zero]
      simp

/-- Witness for the amended claim C7 at the concrete degenerate build. -/
theorem claim_C7_witness :
    ∃ li, (create_bricks volConst1 (2, 2, 2) 2).levels[1]? = some li ∧ li.level = 1 ∧
      (li.dimensions.1 = 0 ∨ li.dimensions.2.1 = 0 ∨ li.dimensions.2.2 = 0) ∧
      li.total_bricks = 0 :=
  claim_C7_amended volConst1 (2, 2, 2) 2 1 (by decide) (by decide) (Or.inl (by decide))

/-- Counterexample to claim C9: the brick write is not atomic — after the
header write completes but before the payload write, the brick file is
visible with length 12, which is neither absent nor the complete
header+payload file. -/
theorem claim_C9_counterexample :
    ¬ (∀ steps, brickWriteFileLen brickFileEx steps = none ∨
        brickWriteFileLen brickFileEx steps = some (byteSize brickFileEx)) := by
  intro h
  have h2 := h 2
  revert h2
  decide

/-- Claim C9 as amended: an interrupted brick write may leave a visible
partial file (empty after `open('wb')`, or 12 bytes after the header write);
only once all three operations complete is the full `12 + 4*bx*by*bz`-byte
file present, and a completed write always has exactly that size. -/
theorem claim_C9_amended (bf : BrickFile) (steps : ℕ) :
    (brickWriteFileLen bf steps = none ∨ brickWriteFileLen bf steps = some 0 ∨
      brickWriteFileLen bf steps = some 12 ∨
      brickWriteFileLen bf steps = some (byteSize bf)) ∧
    (3 ≤ steps → brickWriteFileLen bf steps = some (byteSize bf)) := by
  rcases steps with _ | (_ | (_ | n))
  · exact ⟨Or.inl rfl, by omega⟩
  · exact ⟨Or.inr (Or.inl rfl), by omega⟩
  · exact ⟨Or.inr (Or.inr (Or.inl rfl)), by omega⟩
  · exact ⟨Or.inr (Or.inr (Or.inr rfl)), fun _ => rfl⟩

/-- Witness for the amended claim C9 at a completed concrete write. -/
theorem claim_C9_witness :
    (brickWriteFileLen brickFileEx 3 = none ∨ brickWriteFileLen brickFileEx 3 = some 0 ∨
      brickWriteFileLen brickFileEx 3 = some 12 ∨
      brickWriteFileLen brickFileEx 3 = some (byteSize brickFileEx)) ∧
    brickWriteFileLen brickFileEx 3 = some (byteSize brickFileEx) :=
  ⟨(claim_C9_amended brickFileEx 3).1, (claim_C9_amended brickFileEx 3).2 (by decide)⟩

theorem writeBricksSeq_no_manifest (ok : ℕ → Bool) :
    ∀ (l : List (ℕ × ℕ × ℕ × ℕ)) (idx : ℕ),
      FsEvent.manifestWrite ∉ (writeBricksSeq ok l idx).1 := by
  intro l
  induction l with
  | nil => intro idx; simp [writeBricksSeq]
  | cons c rest ih =>
    intro idx
    simp only [writeBricksSeq]
    by_cases h : ok idx = true
    · rw [if_pos h]
      intro hmem
      rcases List.mem_cons.mp hmem with heq | hmem2
      · exact FsEvent.noConfusion heq
      · exact ih (idx + 1) hmem2
    · rw [if_neg h]
      simp

theorem writeBricksSeq_success (ok : ℕ → Bool) :
    ∀ (l : List (ℕ × ℕ × ℕ × ℕ)) (idx : ℕ), (writeBricksSeq ok l idx).2 = true →
      (writeBricksSeq ok l idx).1 =
        l.map fun c => FsEvent.brickWrite c.1 c.2.1 c.2.2.1 c.2.2.2 := by
  intro l
  induction l with
  | nil => intro idx _; simp [writeBricksSeq]
  | cons c rest ih =>
    intro idx hs
    simp only [writeBricksSeq] at hs ⊢
    by_cases h : ok idx = true
    · rw [if_pos h] at hs ⊢
      show FsEvent.brickWrite c.1 c.2.1 c.2.2.1 c.2.2.2 :: (writeBricksSeq ok rest (idx + 1)).1 =
        List.map (fun c2 => FsEvent.brickWrite c2.1 c2.2.1 c2.2.2.1 c2.2.2.2) (c :: rest)
      rw [List.map_cons]
      congr 1
      exact ih (idx + 1) hs
    · rw [if_neg h] at hs
      simp at hs

/-- Claim C8: the manifest write is the last filesystem event, occurring only
after every brick of every level has been written; on any fatal failure
(non-3D input, zero-length axis, or a brick write failure) the build aborts
with no manifest event in the trace. -/
theorem claim_C8_manifest_last (arr : NDArray) (bs : ℕ × ℕ × ℕ) (nl : ℕ) (ok : ℕ → Bool) :
    ((runBuild arr bs nl ok).2 = true →
      ∃ nx ny nz, arr.shape = [nx, ny, nz] ∧
        (runBuild arr bs nl ok).1 =
          ((allBrickCoords (normalize_data ⟨nx, ny, nz, DType.float64, arr.val⟩) bs nl).map
              fun c => FsEvent.brickWrite c.1 c.2.1 c.2.2.1 c.2.2.2) ++
            [FsEvent.manifestWrite]) ∧
    ((runBuild arr bs nl ok).2 = false →
      FsEvent.manifestWrite ∉ (runBuild arr bs nl ok).1) := by
  rcases harr : arr.shape with _ | ⟨nx, _ | ⟨ny, _ | ⟨nz, _ | ⟨w, tl⟩⟩⟩⟩
  · simp only [runBuild, harr]
    refine ⟨?_, ?_⟩
    · intro h
      simp at h
    · intro _
      simp
  · simp only [runBuild, harr]
    refine ⟨?_, ?_⟩
    · intro h
      simp at h
    · intro _
      simp
  · simp only [runBuild, harr]
    refine ⟨?_, ?_⟩
    · intro h
      simp at h
    · intro _
      simp
  · simp only [runBuild, harr]
    by_cases hvalid : 0 < nx ∧ 0 < ny ∧ 0 < nz
    · rw [if_pos hvalid]
      by_cases hr : (writeBricksSeq ok
          (allBrickCoords (normalize_data ⟨nx, ny, nz, DType.float64, arr.val⟩) bs nl) 0).2 = true
      · rw [if_pos hr]
        refine ⟨?_, ?_⟩
        · intro _
          refine ⟨nx, ny, nz, rfl, ?_⟩
          rw [writeBricksSeq_success ok _ 0 hr]
        · intro h
          simp at h
      · rw [if_neg hr]
        refine ⟨?_, ?_⟩
        · intro h
          simp at h
        · intro _
          exact writeBricksSeq_no_manifest ok _ 0
    · rw [if_neg hvalid]
      refine ⟨?_, ?_⟩
      · intro h
        simp at h
      · intro _
        simp
  · simp only [runBuild, harr]
    refine ⟨?_, ?_⟩
    · intro h
      simp at h
    · intro _
      simp

/-- Witness for claim C8: a failing first write leaves a trace with no
manifest event. -/
theorem claim_C8_witness :
    FsEvent.manifestWrite ∉ (runBuild arrEx (1, 1, 1) 1 (fun _ => false)).1 :=
  (claim_C8_manifest_last arrEx (1, 1, 1) 1 (fun _ => false)).2 (by decide)

theorem getElem?_flatMap_range_sum {α : Type} :
    ∀ (n : ℕ) (f : ℕ → List α) (t k : ℕ), t < n → k < (f t).length →
      ((List.range n).flatMap f)[(((List.range t).map fun l => (f l).length).sum + k)]? =
        (f t)[k]? := by
  intro n
  induction n with
  | zero => intro f t k ht _; exact absurd ht (Nat.not_lt_zero t)
  | succ n ih =>
    intro f t k ht hk
    rw [List.range_succ_eq_map, List.flatMap_cons, List.flatMap_map]
    cases t with
    | zero =>
      rw [List.range_zero, List.map_nil, List.sum_nil, Nat.zero_add]
      exact List.getElem?_append_left hk
    | succ t2 =>
      have hsum : ((List.range (t2 + 1)).map fun l => (f l).length).sum =
          (f 0).length + ((List.range t2).map fun l => (f (l + 1)).length).sum := by
        rw [List.range_succ_eq_map, List.map_cons, List.sum_cons, List.map_map]
        rfl
      rw [hsum, Nat.add_assoc, List.getElem?_append_right (by omega),
        Nat.add_sub_cancel_left]
      exact ih (fun a => f (a + 1)) t2 k (by omega) hk

theorem getElem?_triple_flatMap {α : Type} (n1 n2 n3 : ℕ) (g : ℕ → ℕ → ℕ → α)
    {i j k : ℕ} (hi : i < n1) (hj : j < n2) (hk : k < n3) :
    ((List.range n1).flatMap fun a =>
        (List.range n2).flatMap fun b =>
          (List.range n3).map fun c => g a b c)[(i * n2 + j) * n3 + k]? =
      some (g i j k) := by
  have hlen : ∀ t, ((List.range n2).flatMap fun b =>
      (List.range n3).map fun c => g t b c).length = n2 * n3 := by
    intro t
    refine length_flatMap_range_const n2 _ n3 ?_
    intro t2
    simp
  have hidx : (i * n2 + j) * n3 + k = i * (n2 * n3) + (j * n3 + k) := by ring
  have hjk : j * n3 + k < n2 * n3 := by
    have e1 : (j + 1) * n3 ≤ n2 * n3 := Nat.mul_le_mul_right n3 (by omega)
    have e2 : (j + 1) * n3 = j * n3 + n3 := by ring
    omega
  rw [hidx, getElem?_flatMap_range_const n1 _ (n2 * n3) i (j * n3 + k) hlen hi hjk]
  have hlen2 : ∀ t, ((List.range n3).map fun c => g i t c).length = n3 := by
    intro t
    simp
  rw [getElem?_flatMap_range_const n2 _ n3 j k hlen2 hj hk]
  rw [List.getElem?_map, List.getElem?_range hk]
  rfl

theorem bricksForLevel_length (data : Volume) (l : ℕ) (bs : ℕ × ℕ × ℕ) :
    (bricksForLevel data l bs).length = (levelInfoFor data l bs).total_bricks := by
  have h1 : (bricksForLevel data l bs).length =
      numBricks (levelVolume data l).nx bs.1 *
        (numBricks (levelVolume data l).ny bs.2.1 * numBricks (levelVolume data l).nz bs.2.2) := by
    simp only [bricksForLevel]
    refine length_flatMap_range_const _ _ _ ?_
    intro t
    refine length_flatMap_range_const _ _ _ ?_
    intro t2
    simp
  rw [h1]
  show _ = numBricks (levelVolume data l).nx bs.1 * numBricks (levelVolume data l).ny bs.2.1 *
    numBricks (levelVolume data l).nz bs.2.2
  ring

/-- Claim C10: the manifest levels list is ordered by ascending level index
(its `level` fields read `0, 1, ..., num_levels-1` in order), and the flat
bricks list is laid out lexicographically by `(level, x, y, z)` with `z`
fastest: the record of brick `(ix, iy, iz)` of level `L` sits exactly at
index `levelOffset + (ix*nby + iy)*nbz + iz`, computable from the level
dimensions alone. -/
theorem claim_C10_ordering (v : Volume) (bs : ℕ × ℕ × ℕ) (nl : ℕ) :
    ((create_bricks v bs nl).levels.map fun li => li.level) = List.range nl ∧
    (∀ L ix iy iz, L < nl →
      ix < numBricks (levelVolume (normalize_data v) L).nx bs.1 →
      iy < numBricks (levelVolume (normalize_data v) L).ny bs.2.1 →
      iz < numBricks (levelVolume (normalize_data v) L).nz bs.2.2 →
      (create_bricks v bs nl).bricks[(levelOffset (normalize_data v) bs L +
          ((ix * numBricks (levelVolume (normalize_data v) L).ny bs.2.1 + iy) *
              numBricks (levelVolume (normalize_data v) L).nz bs.2.2 + iz))]? =
        some (brickInfoAt (normalize_data v) L bs ix iy iz)) := by
  constructor
  · have h : (create_bricks v bs nl).levels =
        (List.range nl).map fun l => levelInfoFor (normalize_data v) l bs := rfl
    rw [h, List.map_map]
    have h2 : ((fun li : LevelInfo => li.level) ∘
        fun l => levelInfoFor (normalize_data v) l bs) = fun l => l := rfl
    rw [h2]
    exact List.map_id _
  · intro L ix iy iz hL hx hy hz
    have hbr : (create_bricks v bs nl).bricks =
        (List.range nl).flatMap fun l => bricksForLevel (normalize_data v) l bs := rfl
    have hoff : levelOffset (normalize_data v) bs L =
        ((List.range L).map fun l => (bricksForLevel (normalize_data v) l bs).length).sum := by
      unfold levelOffset
      congr 1
      refine List.map_congr_left ?_
      intro a ha
      rw [bricksForLevel_length]
    have hklt : (ix * numBricks (levelVolume (normalize_data v) L).ny bs.2.1 + iy) *
          numBricks (levelVolume (normalize_data v) L).nz bs.2.2 + iz <
        (bricksForLevel (normalize_data v) L bs).length := by
      rw [bricksForLevel_length]
      have htot : (levelInfoFor (normalize_data v) L bs).total_bricks =
          numBricks (levelVolume (normalize_data v) L).nx bs.1 *
            numBricks (levelVolume (normalize_data v) L).ny bs.2.1 *
            numBricks (levelVolume (normalize_data v) L).nz bs.2.2 := rfl
      rw [htot]
      have e1 : (ix + 1) * numBricks (levelVolume (normalize_data v) L).ny bs.2.1 ≤
          numBricks (levelVolume (normalize_data v) L).nx bs.1 *
            numBricks (levelVolume (normalize_data v) L).ny bs.2.1 :=
        Nat.mul_le_mul_right _ (by omega)
      have e2 : (ix + 1) * numBricks (levelVolume (normalize_data v) L).ny bs.2.1 =
          ix * numBricks (levelVolume (normalize_data v) L).ny bs.2.1 +
            numBricks (levelVolume (normalize_data v) L).ny bs.2.1 := by ring
      have e3 : (ix * numBricks (levelVolume (normalize_data v) L).ny bs.2.1 + iy + 1) *
            numBricks (levelVolume (normalize_data v) L).nz bs.2.2 ≤
          numBricks (levelVolume (normalize_data v) L).nx bs.1 *
            numBricks (levelVolume (normalize_data v) L).ny bs.2.1 *
            numBricks (levelVolume (normalize_data v) L).nz bs.2.2 :=
        Nat.mul_le_mul_right _ (by omega)
      have e4 : (ix * numBricks (levelVolume (normalize_data v) L).ny bs.2.1 + iy + 1) *
            numBricks (levelVolume (normalize_data v) L).nz bs.2.2 =
          (ix * numBricks (levelVolume (normalize_data v) L).ny bs.2.1 + iy) *
            numBricks (levelVolume (normalize_data v) L).nz bs.2.2 +
            numBricks (levelVolume (normalize_data v) L).nz bs.2.2 := by ring
      omega
    rw [hbr, hoff]
    have hstep := getElem?_flatMap_range_sum nl
      (fun l => bricksForLevel (normalize_data v) l bs) L
      ((ix * numBricks (levelVolume (normalize_data v) L).ny bs.2.1 + iy) *
        numBricks (levelVolume (normalize_data v) L).nz bs.2.2 + iz) hL hklt
    refine hstep.trans ?_
    exact getElem?_triple_flatMap
      (numBricks (levelVolume (normalize_data v) L).nx bs.1)
      (numBricks (levelVolume (normalize_data v) L).ny bs.2.1)
      (numBricks (levelVolume (normalize_data v) L).nz bs.2.2)
      (fun a b c => brickInfoAt (normalize_data v) L bs a b c) hx hy hz

/-- Witness for claim C10 at a concrete one-level build. -/
theorem claim_C10_witness :
    (0 : ℕ) < 1 ∧
    (create_bricks volConst1 (2, 2, 2) 1).bricks[(levelOffset (normalize_data volConst1) (2, 2, 2) 0 +
        ((0 * numBricks (levelVolume (normalize_data volConst1) 0).ny 2 + 0) *
            numBricks (levelVolume (normalize_data volConst1) 0).nz 2 + 0))]? =
      some (brickInfoAt (normalize_data volConst1) 0 (2, 2, 2) 0 0 0) :=
  ⟨by decide, (claim_C10_ordering volConst1 (2, 2, 2) 1).2 0 0 0 0
    (by decide) (by decide) (by decide) (by decide)⟩
